import Mathlib

/-!
Verification of the bidirectional-map core of `sl_python_gizmos`
(`dict_tricks.PairedDict` and `dict_tricks.BijectiveMap`).

Python dictionaries are modelled as insertion-ordered association lists
with unique keys (`Dict`): `d[k] = v` overwrites in place when `k` is
already a key and appends otherwise; `del d[k]` removes the entry;
lookup takes the first (unique) match.  Since Python is untyped, keys
and values are drawn from a single type `α` with decidable equality.

A well-formed `BijectiveMap` is modelled by `BijState`: the contents of
the forward `PairedDict` (`self.maps[0]`, i.e. `fwd.data`) and of the
backward one (`self.maps[1]`, i.e. `bwd.data`).  `BijectiveMap`
construction goes through `PairedDict.make_pairs`, which guarantees
`fwd.inverse is bwd` and `bwd.inverse is fwd`, and no public operation
ever reassigns the `inverse` attributes, so for `BijectiveMap` claims
the pointer structure is fixed and only the two dictionaries evolve.

For claims about `PairedDict` objects with arbitrary `inverse` wiring
(replaced inverses, broken back-links), a small heap model (`Heap`,
`PDObj`) makes the object graph explicit.
-/

/-- Python errors that the modelled code can raise. -/
inductive PyErr : Type where
  | keyError : PyErr
  | valueError : PyErr
deriving DecidableEq

instance {ε σ : Type} [DecidableEq ε] [DecidableEq σ] : DecidableEq (Except ε σ)
  | Except.error e1, Except.error e2 =>
    if h : e1 = e2 then isTrue (by rw [h])
    else isFalse (fun hc => h (Except.error.inj hc))
  | Except.error _, Except.ok _ => isFalse (fun hc => Except.noConfusion hc)
  | Except.ok _, Except.error _ => isFalse (fun hc => Except.noConfusion hc)
  | Except.ok a1, Except.ok a2 =>
    if h : a1 = a2 then isTrue (by rw [h])
    else isFalse (fun hc => h (Except.ok.inj hc))

/-- A Python dictionary: insertion-ordered association list (unique keys
are maintained by the operations below, as in CPython). -/
abbrev Dict (α : Type) := List (α × α)

/-- First-match lookup, `d[k]` / `d.get(k)`. -/
def lookup? {α : Type} [DecidableEq α] : Dict α → α → Option α
  | [], _ => none
  | (k', v) :: rest, k => if k' = k then some v else lookup? rest k

/-- Membership test `k in d.keys()`. -/
def containsKey {α : Type} [DecidableEq α] (d : Dict α) (k : α) : Bool :=
  (lookup? d k).isSome

/-- The key list of a dictionary, in insertion order. -/
def keys {α : Type} (d : Dict α) : List α := d.map Prod.fst

/-- Keys are pairwise distinct — automatic for a real Python dict. -/
def NodupKeys {α : Type} (d : Dict α) : Prop := (keys d).Nodup

instance {α : Type} [DecidableEq α] (d : Dict α) : Decidable (NodupKeys d) :=
  inferInstanceAs (Decidable (keys d).Nodup)

/-- Entry removal, `del d[k]` on the underlying dict (unguarded). -/
def erase {α : Type} [DecidableEq α] (d : Dict α) (k : α) : Dict α :=
  d.filter (fun p => decide (p.1 ≠ k))

/-- Item assignment `d[k] = v` on the underlying dict (unguarded):
overwrite in place if the key exists, else append at the end. -/
def setd {α : Type} [DecidableEq α] (d : Dict α) (k v : α) : Dict α :=
  if containsKey d k then d.map (fun p => if p.1 = k then (k, v) else p)
  else d ++ [(k, v)]

/-- `d.update(pairs)`: repeated item assignment, left to right. -/
def update {α : Type} [DecidableEq α] (d : Dict α) (l : List (α × α)) : Dict α :=
  l.foldl (fun acc p => setd acc p.1 p.2) d

/-- `dict(pairs)`: build a dictionary from an iterable of pairs. -/
def dictOf {α : Type} [DecidableEq α] (l : List (α × α)) : Dict α :=
  update [] l

/-- Python `==` on two dictionaries: same keys with the same values. -/
def dictBEq {α : Type} [DecidableEq α] (d1 d2 : Dict α) : Bool :=
  decide (d1.length = d2.length) &&
    d1.all (fun p => decide (lookup? d2 p.1 = some p.2))

/-- The generator `all(map2[v] == k for k, v in map1.items())` inside
`is_inverse_dict`: walks the entries of `map1`; a missing key `v` in
`map2` raises `KeyError` (`Except.error`), a mismatch short-circuits to
`False`, otherwise the remaining entries are checked. -/
def allInv {α : Type} [DecidableEq α] (m2 : Dict α) : List (α × α) → Except Unit Bool
  | [] => Except.ok true
  | (k, v) :: rest =>
    match lookup? m2 v with
    | none => Except.error ()
    | some k2 => if k2 = k then allInv m2 rest else Except.ok false

/-- `dict_tricks.is_inverse_dict(map1, map2)`: `False` when the lengths
differ, otherwise checks `map2[v] == k` for every item of `map1`. -/
def is_inverse_dict {α : Type} [DecidableEq α] (m1 m2 : Dict α) : Except Unit Bool :=
  if m1.length = m2.length then allInv m2 m1 else Except.ok false

/-- State of a well-formed `BijectiveMap` (or, equally, of a correctly
cross-linked `PairedDict` pair): contents of the forward and backward
dictionaries.  The `inverse` pointers are fixed by construction
(`fwd.inverse is bwd`, `bwd.inverse is fwd`) and never reassigned by
any operation modelled on this state. -/
structure BijState (α : Type) where
  fwd : Dict α
  bwd : Dict α
deriving DecidableEq

/-- Swap the two directions: the backward `PairedDict` viewed as the
primary object (its `self` is `bwd` and its `inverse` is `fwd`). -/
def BijState.swap {α : Type} (s : BijState α) : BijState α :=
  ⟨s.bwd, s.fwd⟩

/-- `PairedDict.check_inverse` on a correctly cross-linked pair: the
guards `self.inverse is None` and `self.inverse.inverse != self` are
`False` there (`inverse.inverse` is `self`, and Python `self != self`
is `False` for a mapping), so the method reduces to
`is_inverse_dict(self, self.inverse)`. -/
def check_inverse {α : Type} [DecidableEq α] (s : BijState α) : Except Unit Bool :=
  is_inverse_dict s.fwd s.bwd

/-- `PairedDict.__delitem__` on the forward object of a formed pair
(`self = fwd`, `self.inverse = bwd`, `self._formed = True`):
`super(PairedDict, self.inverse).__delitem__(self[key])`, then
`super().__delitem__(key)`.  `self[key]` raises `KeyError` before any
mutation when `key` is absent; the raw deletion on the inverse raises
`KeyError` (still before any mutation) when `self[key]` is not a key of
the inverse.  The returned pair is (raised error if any, state after
the call). -/
def delitemF {α : Type} [DecidableEq α] (s : BijState α) (k : α) :
    Option PyErr × BijState α :=
  match lookup? s.fwd k with
  | none => (some PyErr.keyError, s)
  | some v =>
    if containsKey s.bwd v then
      (none, ⟨erase s.fwd k, erase s.bwd v⟩)
    else (some PyErr.keyError, s)

/-- `PairedDict.__delitem__` on the backward object: the same method
body with the roles of the two dictionaries exchanged. -/
def delitemB {α : Type} [DecidableEq α] (s : BijState α) (k : α) :
    Option PyErr × BijState α :=
  let r := delitemF s.swap k
  (r.1, r.2.swap)

/-- Sequencing of two mutating statements: when the first one raised,
the raised error and the state it left behind are final; otherwise the
second statement runs on the resulting state. -/
def thenOk {σ : Type} (r : Option PyErr × σ) (f : σ → Option PyErr × σ) :
    Option PyErr × σ :=
  match r with
  | (some e, s) => (some e, s)
  | (none, s) => f s

/-- `PairedDict.__setitem__` on the forward object of a formed pair:
`del self[key]` when `key` is present, `del self.inverse[value]` when
`value` is present there, then the raw insertions
`super(PairedDict, self.inverse).__setitem__(value, key)` and
`super().__setitem__(key, value)`.  A `KeyError` escaping one of the
guarded deletions (possible only on an inconsistent pair) propagates,
leaving the mutations already performed in place. -/
def setitemF {α : Type} [DecidableEq α] (s : BijState α) (k v : α) :
    Option PyErr × BijState α :=
  thenOk (if containsKey s.fwd k then delitemF s k else (none, s)) (fun s1 =>
    thenOk (if containsKey s1.bwd v then delitemB s1 v else (none, s1)) (fun s2 =>
      (none, ⟨setd s2.fwd k v, setd s2.bwd v k⟩)))

/-- `BijectiveMap.__setitem__` (via `ChainMap.__setitem__`):
`self.maps[0][key] = value`, i.e. the guarded set on the forward map. -/
def bijSet {α : Type} [DecidableEq α] (s : BijState α) (k v : α) :
    Option PyErr × BijState α :=
  setitemF s k v

/-- `BijectiveMap.__delitem__`: delete through the forward map when the
key is there, else through the backward map, else raise `KeyError`. -/
def bijDel {α : Type} [DecidableEq α] (s : BijState α) (k : α) :
    Option PyErr × BijState α :=
  if containsKey s.fwd k then delitemF s k
  else if containsKey s.bwd k then delitemB s k
  else (some PyErr.keyError, s)

/-- `BijectiveMap.__getitem__` (via `ChainMap.__getitem__`): try
`self.maps[0]` (forward) first, then `self.maps[1]` (backward), and
raise `KeyError` when both miss. -/
def bijGet {α : Type} [DecidableEq α] (s : BijState α) (x : α) : Except PyErr α :=
  match lookup? s.fwd x with
  | some v => Except.ok v
  | none =>
    match lookup? s.bwd x with
    | some v => Except.ok v
    | none => Except.error PyErr.keyError

/-- `ChainMap.__iter__`: `d = {}`, then `d.update(dict.fromkeys(m))`
for each map `m` of `reversed(self.maps)`, then `iter(d)` — yields the
keys of `d` in insertion order. -/
def chainIter {α : Type} [DecidableEq α] (maps : List (Dict α)) : List α :=
  keys (maps.reverse.foldl
    (fun d m => update d ((keys m).map (fun k => (k, k)))) [])

/-- Iteration over a `BijectiveMap`: `ChainMap.__iter__` with
`self.maps = [fwd, bwd]`. -/
def bijIter {α : Type} [DecidableEq α] (s : BijState α) : List α :=
  chainIter [s.fwd, s.bwd]

/-- Modelled from the spec: `sl_py_tools.arg_tricks.non_default_eval`,
called by `PairedDict.__init__` but absent from `src/arg_tricks.py`.
Per §4.1 Phase B of the spec, when no inverse object was supplied
(`optional` is `None`) the default builder is invoked (secret-mode
construction of the inverse); when one was supplied, the non-default
function is applied to it. -/
def non_default_eval {γ δ : Type} (optional : Option γ)
    (fn : γ → δ) (dflt : Unit → δ) : δ :=
  match optional with
  | none => dflt ()
  | some x => fn x

/-- `PairedDict.__init__` reached with positional pairs and keyword
`inverse` (not secret): `self.data = dict(pairs)`; the inverse object
is built by `non_default_eval` — with no supplied inverse, a secret
`PairedDict(inverse=self)` whose phase-C update makes its data the
unchecked inversion of `self.data`; with a supplied inverse, a secret
copy of it updated with the inversion of `self.data`, after which
`self` is updated with the inversion of that object's data. -/
def pdInit {α : Type} [DecidableEq α] (pairs : List (α × α))
    (inv? : Option (Dict α)) : BijState α :=
  let d := dictOf pairs
  let bwd := non_default_eval inv?
    (fun pre => update (dictOf pre) (d.map Prod.swap))
    (fun _ => dictOf (d.map Prod.swap))
  match inv? with
  | none => ⟨d, bwd⟩
  | some _ => ⟨update d (bwd.map Prod.swap), bwd⟩

/-- `self.inverse.fix_me()` as called from `fix_inverse` (`self` is the
forward object): the backward object checks `is_inverse_dict(bwd, fwd)`
and, when that returns `False`, updates itself with the inversion of
the forward data (raw sets, under `_unformed`).  A `KeyError` from the
check propagates. -/
def fix_me_bwd {α : Type} [DecidableEq α] (s : BijState α) :
    Except PyErr (BijState α) :=
  match is_inverse_dict s.bwd s.fwd with
  | Except.error _ => Except.error PyErr.keyError
  | Except.ok true => Except.ok s
  | Except.ok false => Except.ok ⟨s.fwd, update s.bwd (s.fwd.map Prod.swap)⟩

/-- `self.fix_me()` on the forward object: symmetric to `fix_me_bwd`. -/
def fix_me_fwd {α : Type} [DecidableEq α] (s : BijState α) :
    Except PyErr (BijState α) :=
  match is_inverse_dict s.fwd s.bwd with
  | Except.error _ => Except.error PyErr.keyError
  | Except.ok true => Except.ok s
  | Except.ok false => Except.ok ⟨update s.fwd (s.bwd.map Prod.swap), s.bwd⟩

/-- Sequencing after a statement that may raise: a raised error
propagates, otherwise the continuation runs. -/
def exThen {σ : Type} (r : Except PyErr σ) (f : σ → Except PyErr σ) :
    Except PyErr σ :=
  match r with
  | Except.error e => Except.error e
  | Except.ok s => f s

/-- Sequencing after a call of `check_inverse`, whose own `KeyError`
(from `is_inverse_dict`) propagates; otherwise the continuation
receives the boolean. -/
def chkThen {σ : Type} (r : Except Unit Bool) (f : Bool → Except PyErr σ) :
    Except PyErr σ :=
  match r with
  | Except.error _ => Except.error PyErr.keyError
  | Except.ok b => f b

/-- `PairedDict.fix_inverse` on the forward object of a constructed
pair (its inverse exists and the relink `self.inverse.inverse = self`
is a no-op): repair the inverse from `self` if inconsistent, then
`self` from the inverse if still inconsistent, then raise `ValueError`
if consistency was not achieved. -/
def fix_inverse {α : Type} [DecidableEq α] (s : BijState α) :
    Except PyErr (BijState α) :=
  chkThen (check_inverse s) (fun c1 =>
    exThen (if c1 then Except.ok s else fix_me_bwd s) (fun s1 =>
      chkThen (check_inverse s1) (fun c2 =>
        exThen (if c2 then Except.ok s1 else fix_me_fwd s1) (fun s2 =>
          chkThen (check_inverse s2) (fun c3 =>
            if c3 then Except.ok s2 else Except.error PyErr.valueError)))))

/-- `PairedDict.make_pairs(pairs)` (no `inverse` keyword): build the
forward object from the pairs, `fix_inverse`, then the final assertion
`check_inverse_strict` — whose identity part `inverse.inverse is self`
holds by construction here, leaving the content check — raising
`ValueError` when it fails. -/
def make_pairs {α : Type} [DecidableEq α] (pairs : List (α × α)) :
    Except PyErr (BijState α) :=
  exThen (fix_inverse (pdInit pairs none)) (fun s =>
    chkThen (check_inverse s) (fun c =>
      if c then Except.ok s else Except.error PyErr.valueError))

/-- `BijectiveMap.__init__`: `super().__init__(*PairedDict.make_pairs(...))`. -/
def bijNew {α : Type} [DecidableEq α] (pairs : List (α × α)) :
    Except PyErr (BijState α) :=
  make_pairs pairs

/-- The inverse-consistency invariant of the spec, on a `BijState`:
every forward pair round-trips through the backward map, and the two
directions have the same size. -/
def InvHolds {α : Type} [DecidableEq α] (s : BijState α) : Prop :=
  (∀ p ∈ s.fwd, lookup? s.bwd p.2 = some p.1) ∧ s.fwd.length = s.bwd.length

instance {α : Type} [DecidableEq α] (s : BijState α) : Decidable (InvHolds s) :=
  inferInstanceAs (Decidable (_ ∧ _))

/-- Well-formedness of a `BijectiveMap` state: both components are
genuine dictionaries (unique keys — automatic in Python) and the
inverse-consistency invariant holds. -/
def WF {α : Type} [DecidableEq α] (s : BijState α) : Prop :=
  NodupKeys s.fwd ∧ NodupKeys s.bwd ∧ InvHolds s

instance {α : Type} [DecidableEq α] (s : BijState α) : Decidable (WF s) :=
  inferInstanceAs (Decidable (_ ∧ _ ∧ _))

/-!
Heap model of `PairedDict` objects with arbitrary `inverse` wiring,
for the claims about `check_inverse` and `fix_me` on objects whose
links may have been replaced.  An object holds its dictionary contents
and an optional pointer (heap index) to its inverse; the `_formed`
flag is irrelevant to the two modelled methods (`check_inverse` never
reads it, `fix_me` restores it).
-/

/-- A `PairedDict` object: its `data` dict and its `inverse` pointer. -/
structure PDObj (α : Type) where
  data : Dict α
  inverse : Option Nat
deriving DecidableEq

/-- An object heap: Python object identity is the heap index. -/
abbrev Heap (α : Type) := List (PDObj α)

/-- Branching on an optional reference: the default when it is `None`,
the continuation on the object otherwise. -/
def optThen {γ σ : Type} (r : Option γ) (dflt : σ) (f : γ → σ) : σ :=
  match r with
  | none => dflt
  | some x => f x

/-- Sequencing after a consistency check inside another `PairedDict`
method: a `KeyError` from the check propagates, otherwise the
continuation receives the boolean. -/
def chkThenU {σ : Type} (r : Except Unit Bool) (f : Bool → Except Unit σ) :
    Except Unit σ :=
  match r with
  | Except.error e => Except.error e
  | Except.ok b => f b

/-- `PairedDict.check_inverse` on heap object `i`: `False` when
`self.inverse is None` or `self.inverse.inverse` is `None`; `False`
when `self.inverse.inverse != self` (Python mapping equality compares
contents); otherwise `is_inverse_dict(self, self.inverse)`.  A dangling
pointer (no Python analogue) is an error. -/
def hCheckInverse {α : Type} [DecidableEq α] (h : Heap α) (i : Nat) :
    Except Unit Bool :=
  optThen (h.get? i) (Except.error ()) (fun o =>
    optThen o.inverse (Except.ok false) (fun j =>
      optThen (h.get? j) (Except.error ()) (fun oj =>
        optThen oj.inverse (Except.ok false) (fun l =>
          optThen (h.get? l) (Except.error ()) (fun ol =>
            if dictBEq ol.data o.data then is_inverse_dict o.data oj.data
            else Except.ok false)))))

/-- The loop `for key, value in gen: self[key] = value` of
`self.update(_inv_dict_iter(self.inverse))` when `self.inverse` is
`self` itself: the generator pulls from a dict iterator over the very
dict being mutated, strictly alternating one pull with one raw set
`self[v] = k`.  The iterator advances by entry position, so each pulled
entry is read after the earlier sets (overwrites keep an entry's
position, new keys are appended past the cursor), and CPython's size
guard raises `RuntimeError` at the pull following a set that grew the
dict.  The fuel argument (initially the length plus one, constant on
the non-growing path) only makes the recursion structural. -/
def selfInvMergeAux {α : Type} [DecidableEq α] :
    Nat → Dict α → Nat → Except Unit (Dict α)
  | 0, d, _ => Except.ok d
  | fuel + 1, d, pos =>
    match d.get? pos with
    | none => Except.ok d
    | some (k, v) =>
      let d' := setd d v k
      if d'.length = d.length then selfInvMergeAux fuel d' (pos + 1)
      else Except.error ()

/-- `PairedDict.fix_me` on heap object `i`: nothing when
`self.inverse is None` or when `check_inverse()` holds; otherwise
`self.update(_inv_dict_iter(self.inverse))` under `_unformed` — an
in-place merge into `self.data`, the only slot modified being `i`.
When the inverse is a different object, the lazily pulled generator
reads the unmutated inverse, so the merge uses a snapshot of its
entries; when `self.inverse` is `self` (a reachable self-alias), the
generator is interleaved with the mutation, see `selfInvMergeAux`. -/
def hFixMe {α : Type} [DecidableEq α] (h : Heap α) (i : Nat) :
    Except Unit (Heap α) :=
  optThen (h.get? i) (Except.error ()) (fun o =>
    optThen o.inverse (Except.ok h) (fun j =>
      chkThenU (hCheckInverse h i) (fun c =>
        if c then Except.ok h
        else optThen (h.get? j) (Except.error ()) (fun oj =>
          if i = j then
            match selfInvMergeAux (o.data.length + 1) o.data 0 with
            | Except.error e => Except.error e
            | Except.ok d' => Except.ok (h.set i ⟨d', o.inverse⟩)
          else
            Except.ok (h.set i ⟨update o.data (oj.data.map Prod.swap), o.inverse⟩)))))

/-- The `inverse` pointer of an object, when present, references an
existing heap slot. -/
def invPtrOK {α : Type} (h : Heap α) (o : PDObj α) : Prop :=
  match o.inverse with
  | none => True
  | some j => j < h.length

instance {α : Type} (h : Heap α) (o : PDObj α) : Decidable (invPtrOK h o) :=
  match o with
  | ⟨_, none⟩ => isTrue trivial
  | ⟨_, some j⟩ => inferInstanceAs (Decidable (j < h.length))

/-- A heap that a Python program can actually reach: every `inverse`
pointer references an existing object and every dict has unique keys. -/
def HeapWF {α : Type} [DecidableEq α] (h : Heap α) : Prop :=
  ∀ o ∈ h, invPtrOK h o ∧ NodupKeys o.data

instance {α : Type} [DecidableEq α] (h : Heap α) : Decidable (HeapWF h) :=
  List.decidableBAll _ h

/-- Bidirectional set-inverse relation between two dictionaries, as the
spec states it: equal cardinality and each pair of one is the swapped
pair of the other. -/
def SetInv {α : Type} [DecidableEq α] (m1 m2 : Dict α) : Prop :=
  m1.length = m2.length ∧ ∀ k v, (lookup? m1 k = some v ↔ lookup? m2 v = some k)

/-!  Basic facts about the dictionary operations. -/

theorem lookup?_append {α : Type} [DecidableEq α] (l1 l2 : Dict α) (k : α) :
    lookup? (l1 ++ l2) k =
      (match lookup? l1 k with
       | some v => some v
       | none => lookup? l2 k) := by
  induction l1 with
  | nil => simp [lookup?]
  | cons p rest ih =>
    obtain ⟨k', v⟩ := p
    by_cases h : k' = k <;> simp [lookup?, h, ih]

theorem keys_cons {α : Type} (k0 v0 : α) (rest : Dict α) :
    keys ((k0, v0) :: rest) = k0 :: keys rest := rfl

theorem nodupKeys_cons {α : Type} (k0 v0 : α) (rest : Dict α) :
    NodupKeys ((k0, v0) :: rest) ↔ k0 ∉ keys rest ∧ NodupKeys rest := by
  unfold NodupKeys
  rw [keys_cons, List.nodup_cons]

theorem mem_keys_of_mem {α : Type} {d : Dict α} {k v : α}
    (h : (k, v) ∈ d) : k ∈ keys d :=
  List.mem_map_of_mem Prod.fst h

theorem mem_of_lookup? {α : Type} [DecidableEq α] {d : Dict α} {k v : α}
    (h : lookup? d k = some v) : (k, v) ∈ d := by
  induction d with
  | nil => simp [lookup?] at h
  | cons p rest ih =>
    obtain ⟨k', v'⟩ := p
    by_cases hk : k' = k
    · subst hk
      simp [lookup?] at h
      simp [h]
    · simp [lookup?, hk] at h
      simp [ih h]

theorem lookup?_of_mem {α : Type} [DecidableEq α] {d : Dict α} {k v : α}
    (hd : NodupKeys d) (h : (k, v) ∈ d) : lookup? d k = some v := by
  induction d with
  | nil => simp at h
  | cons p rest ih =>
    obtain ⟨k0, v0⟩ := p
    rw [nodupKeys_cons] at hd
    rcases List.mem_cons.mp h with h1 | h1
    · injection h1 with e1 e2
      subst e1
      subst e2
      simp [lookup?]
    · have hk0 : k0 ≠ k := by
        intro he
        subst he
        exact hd.1 (mem_keys_of_mem h1)
      simp [lookup?, hk0, ih hd.2 h1]

theorem lookup?_isSome_iff_mem_keys {α : Type} [DecidableEq α] (d : Dict α) (k : α) :
    (lookup? d k).isSome = true ↔ k ∈ keys d := by
  induction d with
  | nil => simp [lookup?, keys]
  | cons p rest ih =>
    obtain ⟨k0, v0⟩ := p
    rw [keys_cons, List.mem_cons]
    by_cases h : k0 = k
    · subst h
      simp [lookup?]
    · simp only [lookup?, if_neg h]
      rw [ih]
      constructor
      · exact Or.inr
      · intro hm
        rcases hm with hm | hm
        · exact absurd hm.symm h
        · exact hm

theorem lookup?_eq_none_of_not_mem_keys {α : Type} [DecidableEq α] {d : Dict α} {k : α}
    (h : k ∉ keys d) : lookup? d k = none := by
  rcases he : lookup? d k with _ | v
  · rfl
  · exact absurd ((lookup?_isSome_iff_mem_keys d k).mp (by rw [he]; rfl)) h

theorem containsKey_false_iff {α : Type} [DecidableEq α] (d : Dict α) (k : α) :
    containsKey d k = false ↔ lookup? d k = none := by
  unfold containsKey
  rcases lookup? d k with _ | v <;> simp

theorem containsKey_true_iff {α : Type} [DecidableEq α] (d : Dict α) (k : α) :
    containsKey d k = true ↔ k ∈ keys d := by
  unfold containsKey
  exact lookup?_isSome_iff_mem_keys d k

theorem erase_cons {α : Type} [DecidableEq α] (k0 v0 k : α) (rest : Dict α) :
    erase ((k0, v0) :: rest) k =
      if k0 = k then erase rest k else (k0, v0) :: erase rest k := by
  by_cases h : k0 = k <;> simp [erase, List.filter_cons, h]

theorem lookup?_erase_self {α : Type} [DecidableEq α] (d : Dict α) (k : α) :
    lookup? (erase d k) k = none := by
  induction d with
  | nil => rfl
  | cons p rest ih =>
    obtain ⟨k0, v0⟩ := p
    rw [erase_cons]
    by_cases h : k0 = k
    · rw [if_pos h]
      exact ih
    · rw [if_neg h]
      simpa [lookup?, h] using ih

theorem lookup?_erase_ne {α : Type} [DecidableEq α] (d : Dict α) {k k' : α}
    (h : k' ≠ k) : lookup? (erase d k) k' = lookup? d k' := by
  induction d with
  | nil => rfl
  | cons p rest ih =>
    obtain ⟨k0, v0⟩ := p
    rw [erase_cons]
    by_cases h0 : k0 = k
    · rw [if_pos h0]
      have hne : k0 ≠ k' := by
        rw [h0]
        exact fun hc => h hc.symm
      simp [lookup?, hne, ih]
    · rw [if_neg h0]
      by_cases h1 : k0 = k'
      · simp [lookup?, h1]
      · simp [lookup?, h1, ih]

theorem keys_erase {α : Type} [DecidableEq α] (d : Dict α) (k : α) :
    keys (erase d k) = (keys d).filter (fun x => decide (x ≠ k)) := by
  induction d with
  | nil => rfl
  | cons p rest ih =>
    obtain ⟨k0, v0⟩ := p
    rw [erase_cons, keys_cons, List.filter_cons]
    by_cases h : k0 = k
    · rw [if_pos h]
      simp [h, ih]
    · rw [if_neg h]
      simp [keys_cons, h, ih]

theorem nodupKeys_erase {α : Type} [DecidableEq α] {d : Dict α} (k : α)
    (hd : NodupKeys d) : NodupKeys (erase d k) := by
  unfold NodupKeys at hd ⊢
  rw [keys_erase]
  exact hd.filter _

theorem erase_of_not_mem_keys {α : Type} [DecidableEq α] {d : Dict α} {k : α}
    (h : k ∉ keys d) : erase d k = d := by
  induction d with
  | nil => rfl
  | cons p rest ih =>
    obtain ⟨k0, v0⟩ := p
    rw [keys_cons, List.mem_cons] at h
    push_neg at h
    rw [erase_cons, if_neg (fun hc => h.1 hc.symm), ih h.2]

theorem length_erase {α : Type} [DecidableEq α] {d : Dict α} {k v : α}
    (hd : NodupKeys d) (h : lookup? d k = some v) :
    (erase d k).length + 1 = d.length := by
  induction d with
  | nil => simp [lookup?] at h
  | cons p rest ih =>
    obtain ⟨k0, v0⟩ := p
    rw [nodupKeys_cons] at hd
    by_cases h0 : k0 = k
    · subst h0
      rw [erase_cons, if_pos rfl, erase_of_not_mem_keys hd.1]
      simp
    · rw [erase_cons, if_neg h0]
      have h' : lookup? rest k = some v := by simpa [lookup?, h0] using h
      have := ih hd.2 h'
      simp only [List.length_cons]
      omega

theorem keys_replace {α : Type} [DecidableEq α] (d : Dict α) (k v : α) :
    keys (d.map (fun p => if p.1 = k then (k, v) else p)) = keys d := by
  unfold keys
  rw [List.map_map]
  apply List.map_congr_left
  intro p _
  by_cases h : p.1 = k <;> simp [h]

theorem lookup?_replace_self {α : Type} [DecidableEq α] (d : Dict α) (k v : α)
    (h : k ∈ keys d) :
    lookup? (d.map (fun p => if p.1 = k then (k, v) else p)) k = some v := by
  induction d with
  | nil => simp [keys] at h
  | cons p rest ih =>
    obtain ⟨k0, v0⟩ := p
    rw [List.map_cons]
    by_cases h0 : k0 = k
    · subst h0
      rw [show (if ((k0, v0) : α × α).1 = k0 then (k0, v) else (k0, v0)) = (k0, v)
        by simp]
      simp [lookup?]
    · rw [show (if ((k0, v0) : α × α).1 = k then (k, v) else (k0, v0)) = (k0, v0)
        by simp [h0]]
      rw [keys_cons, List.mem_cons] at h
      have h1 : k ∈ keys rest := by
        rcases h with h | h
        · exact absurd h.symm h0
        · exact h
      simp [lookup?, h0, ih h1]

theorem lookup?_replace_ne {α : Type} [DecidableEq α] (d : Dict α) (k v : α) {k' : α}
    (h : k' ≠ k) :
    lookup? (d.map (fun p => if p.1 = k then (k, v) else p)) k' = lookup? d k' := by
  induction d with
  | nil => rfl
  | cons p rest ih =>
    obtain ⟨k0, v0⟩ := p
    rw [List.map_cons]
    by_cases h0 : k0 = k
    · subst h0
      rw [show (if ((k0, v0) : α × α).1 = k0 then (k0, v) else (k0, v0)) = (k0, v)
        by simp]
      have hne : k0 ≠ k' := fun hc => h hc.symm
      simp [lookup?, hne, ih]
    · rw [show (if ((k0, v0) : α × α).1 = k then (k, v) else (k0, v0)) = (k0, v0)
        by simp [h0]]
      by_cases h1 : k0 = k'
      · simp [lookup?, h1]
      · simp [lookup?, h1, ih]

theorem setd_of_not_contains {α : Type} [DecidableEq α] {d : Dict α} {k : α} (v : α)
    (h : containsKey d k = false) : setd d k v = d ++ [(k, v)] := by
  simp [setd, h]

theorem lookup?_setd_self {α : Type} [DecidableEq α] (d : Dict α) (k v : α) :
    lookup? (setd d k v) k = some v := by
  by_cases h : containsKey d k = true
  · simp only [setd, h, if_true]
    exact lookup?_replace_self d k v ((containsKey_true_iff d k).mp h)
  · rw [setd_of_not_contains v (eq_false_of_ne_true h), lookup?_append]
    rw [(containsKey_false_iff d k).mp (eq_false_of_ne_true h)]
    simp [lookup?]

theorem lookup?_setd_ne {α : Type} [DecidableEq α] (d : Dict α) {k k' : α} (v : α)
    (h : k' ≠ k) : lookup? (setd d k v) k' = lookup? d k' := by
  by_cases hc : containsKey d k = true
  · simp only [setd, hc, if_true]
    exact lookup?_replace_ne d k v h
  · rw [setd_of_not_contains v (eq_false_of_ne_true hc), lookup?_append]
    rcases he : lookup? d k' with _ | w
    · have hne : ¬ k = k' := fun hc' => h hc'.symm
      simp [lookup?, he, hne]
    · simp [he]

theorem keys_setd_of_contains {α : Type} [DecidableEq α] {d : Dict α} {k : α} (v : α)
    (h : containsKey d k = true) : keys (setd d k v) = keys d := by
  simp only [setd, h, if_true]
  exact keys_replace d k v

theorem keys_setd_of_not_contains {α : Type} [DecidableEq α] {d : Dict α} {k : α} (v : α)
    (h : containsKey d k = false) : keys (setd d k v) = keys d ++ [k] := by
  rw [setd_of_not_contains v h]
  unfold keys
  simp

theorem nodupKeys_setd {α : Type} [DecidableEq α] {d : Dict α} (k v : α)
    (hd : NodupKeys d) : NodupKeys (setd d k v) := by
  by_cases h : containsKey d k = true
  · unfold NodupKeys
    rw [keys_setd_of_contains v h]
    exact hd
  · unfold NodupKeys
    rw [keys_setd_of_not_contains v (eq_false_of_ne_true h)]
    have hk : k ∉ keys d := by
      intro hc
      exact h ((containsKey_true_iff d k).mpr hc)
    have hd' : (keys d).Nodup := hd
    simp [List.nodup_append, hd', hk]

theorem nodupKeys_update {α : Type} [DecidableEq α] {d : Dict α} (l : List (α × α))
    (hd : NodupKeys d) : NodupKeys (update d l) := by
  induction l generalizing d with
  | nil => exact hd
  | cons p rest ih => exact ih (nodupKeys_setd p.1 p.2 hd)

theorem nodupKeys_dictOf {α : Type} [DecidableEq α] (l : List (α × α)) :
    NodupKeys (dictOf l) :=
  nodupKeys_update l (by simp [NodupKeys, keys])

theorem nodupKeys_append_single {α : Type} [DecidableEq α] {d : Dict α} {x : α} (y : α)
    (hd : NodupKeys d) (hx : x ∉ keys d) : NodupKeys (d ++ [(x, y)]) := by
  unfold NodupKeys
  rw [show keys (d ++ [(x, y)]) = keys d ++ [x] by unfold keys; simp]
  rw [List.nodup_append]
  refine ⟨hd, List.nodup_singleton x, ?_⟩
  intro a ha hb
  rw [List.mem_singleton] at hb
  subst hb
  exact hx ha

theorem lookup?_flip {α : Type} [DecidableEq α] {m1 m2 : Dict α}
    (h1 : NodupKeys m1) (h2 : NodupKeys m2) (hlen : m1.length = m2.length)
    (hfwd : ∀ p ∈ m1, lookup? m2 p.2 = some p.1) :
    ∀ {v k : α}, lookup? m2 v = some k → lookup? m1 k = some v := by
  have hnodup1 : m1.Nodup := by
    unfold NodupKeys keys at h1
    exact List.Nodup.of_map Prod.fst h1
  have hnodup2 : m2.Nodup := by
    unfold NodupKeys keys at h2
    exact List.Nodup.of_map Prod.fst h2
  have hsub : (m1.toFinset.image Prod.swap) ⊆ m2.toFinset := by
    intro q hq
    rcases Finset.mem_image.mp hq with ⟨p, hp, hpq⟩
    have hp' : p ∈ m1 := List.mem_toFinset.mp hp
    have hmem : (p.2, p.1) ∈ m2 := mem_of_lookup? (hfwd p hp')
    rw [List.mem_toFinset, show q = (p.2, p.1) by rw [hpq.symm]; rfl]
    exact hmem
  have hcard1 : m1.toFinset.card = m1.length := List.toFinset_card_of_nodup hnodup1
  have hcard2 : m2.toFinset.card = m2.length := List.toFinset_card_of_nodup hnodup2
  have hcardim : (m1.toFinset.image Prod.swap).card = m1.toFinset.card :=
    Finset.card_image_of_injective _ Prod.swap_injective
  have heq : m1.toFinset.image Prod.swap = m2.toFinset := by
    apply Finset.eq_of_subset_of_card_le hsub
    rw [hcardim, hcard1, hcard2, hlen]
  intro v k hvk
  have hm2 : (v, k) ∈ m2.toFinset := List.mem_toFinset.mpr (mem_of_lookup? hvk)
  rw [heq.symm] at hm2
  rcases Finset.mem_image.mp hm2 with ⟨p, hp, hpq⟩
  have hp1 : p = (k, v) := by
    have := congrArg Prod.swap hpq
    simpa using this
  subst hp1
  exact lookup?_of_mem h1 (List.mem_toFinset.mp hp)

theorem allInv_ok_true_iff {α : Type} [DecidableEq α] (m2 : Dict α) (l : List (α × α)) :
    allInv m2 l = Except.ok true ↔ ∀ p ∈ l, lookup? m2 p.2 = some p.1 := by
  induction l with
  | nil => simp [allInv]
  | cons p rest ih =>
    obtain ⟨k, v⟩ := p
    rcases he : lookup? m2 v with _ | k2
    · constructor
      · intro hc
        simp [allInv, he] at hc
      · intro hall
        have := hall (k, v) (by simp)
        simp at this
        rw [he] at this
        cases this
    · by_cases hk : k2 = k
      · subst hk
        rw [show allInv m2 ((k2, v) :: rest) = allInv m2 rest by simp [allInv, he]]
        rw [ih]
        constructor
        · intro hr p hp
          rcases List.mem_cons.mp hp with h1 | h1
          · subst h1
            simpa using he
          · exact hr p h1
        · intro hall p hp
          exact hall p (List.mem_cons_of_mem _ hp)
      · constructor
        · intro hc
          simp [allInv, he, hk] at hc
        · intro hall
          have := hall (k, v) (by simp)
          simp at this
          rw [he] at this
          injection this with e
          exact absurd e hk

theorem is_inverse_dict_ok_true_iff {α : Type} [DecidableEq α] (m1 m2 : Dict α) :
    is_inverse_dict m1 m2 = Except.ok true ↔
      (m1.length = m2.length ∧ ∀ p ∈ m1, lookup? m2 p.2 = some p.1) := by
  unfold is_inverse_dict
  by_cases h : m1.length = m2.length
  · simp [h, allInv_ok_true_iff]
  · simp [h]

theorem check_inverse_ok_true_iff {α : Type} [DecidableEq α] (s : BijState α) :
    check_inverse s = Except.ok true ↔ InvHolds s := by
  unfold check_inverse InvHolds
  rw [is_inverse_dict_ok_true_iff]
  exact and_comm

theorem WF.lookup_bwd {α : Type} [DecidableEq α] {s : BijState α} (h : WF s) {k v : α}
    (hk : lookup? s.fwd k = some v) : lookup? s.bwd v = some k :=
  h.2.2.1 (k, v) (mem_of_lookup? hk)

theorem WF.lookup_fwd {α : Type} [DecidableEq α] {s : BijState α} (h : WF s) {v k : α}
    (hv : lookup? s.bwd v = some k) : lookup? s.fwd k = some v :=
  lookup?_flip h.1 h.2.1 h.2.2.2 h.2.2.1 hv

theorem WF_swap {α : Type} [DecidableEq α] {s : BijState α} (h : WF s) : WF s.swap := by
  refine ⟨h.2.1, h.1, ?_, h.2.2.2.symm⟩
  intro p hp
  obtain ⟨x, y⟩ := p
  exact WF.lookup_fwd h (lookup?_of_mem h.2.1 hp)

theorem WF_erase {α : Type} [DecidableEq α] {s : BijState α} {k v : α} (h : WF s)
    (hk : lookup? s.fwd k = some v) :
    WF ⟨erase s.fwd k, erase s.bwd v⟩ := by
  have hv : lookup? s.bwd v = some k := WF.lookup_bwd h hk
  refine ⟨nodupKeys_erase k h.1, nodupKeys_erase v h.2.1, ?_, ?_⟩
  · intro p hp
    unfold erase at hp
    have hpmem : p ∈ s.fwd := List.mem_of_mem_filter hp
    have hpne : p.1 ≠ k := by
      have := List.of_mem_filter hp
      simpa using this
    have hbwd : lookup? s.bwd p.2 = some p.1 := h.2.2.1 p hpmem
    have hne : p.2 ≠ v := by
      intro he
      rw [he, hv] at hbwd
      injection hbwd with e
      exact hpne e.symm
    rw [lookup?_erase_ne _ hne]
    exact hbwd
  · have l1 := length_erase h.1 hk
    have l2 := length_erase h.2.1 hv
    have l3 := h.2.2.2
    simp only [BijState.fwd, BijState.bwd] at l1 l2 l3 ⊢
    omega

theorem WF_erase_bwd {α : Type} [DecidableEq α] {s : BijState α} {v k : α} (h : WF s)
    (hv : lookup? s.bwd v = some k) :
    WF ⟨erase s.fwd k, erase s.bwd v⟩ := by
  have := WF_erase (WF_swap h) (show lookup? s.swap.fwd v = some k from hv)
  have hs := WF_swap this
  exact hs

theorem WF_insert {α : Type} [DecidableEq α] {s : BijState α} {k v : α} (h : WF s)
    (hk : containsKey s.fwd k = false) (hv : containsKey s.bwd v = false) :
    WF ⟨s.fwd ++ [(k, v)], s.bwd ++ [(v, k)]⟩ := by
  have hknot : k ∉ keys s.fwd := by
    intro hc
    rw [(containsKey_true_iff _ _).mpr hc] at hk
    cases hk
  have hvnot : v ∉ keys s.bwd := by
    intro hc
    rw [(containsKey_true_iff _ _).mpr hc] at hv
    cases hv
  refine ⟨nodupKeys_append_single v h.1 hknot,
    nodupKeys_append_single k h.2.1 hvnot, ?_, ?_⟩
  · intro p hp
    rcases List.mem_append.mp hp with h1 | h1
    · have hb := h.2.2.1 p h1
      rw [lookup?_append, hb]
    · rw [List.mem_singleton] at h1
      subst h1
      rw [lookup?_append]
      rw [(containsKey_false_iff _ _).mp hv]
      simp [lookup?]
  · have := h.2.2.2
    simp only [List.length_append, List.length_cons, List.length_nil]
    omega

theorem delitemF_ok {α : Type} [DecidableEq α] {s : BijState α} {k v : α} (h : WF s)
    (hk : lookup? s.fwd k = some v) :
    delitemF s k = (none, ⟨erase s.fwd k, erase s.bwd v⟩) := by
  unfold delitemF
  rw [hk]
  have hv : containsKey s.bwd v = true := by
    unfold containsKey
    rw [WF.lookup_bwd h hk]
    rfl
  simp [hv]

theorem delitemF_err {α : Type} [DecidableEq α] {s : BijState α} {k : α}
    (hk : lookup? s.fwd k = none) :
    delitemF s k = (some PyErr.keyError, s) := by
  unfold delitemF
  rw [hk]

theorem delitemB_ok {α : Type} [DecidableEq α] {s : BijState α} {v k : α} (h : WF s)
    (hv : lookup? s.bwd v = some k) :
    delitemB s v = (none, ⟨erase s.fwd k, erase s.bwd v⟩) := by
  unfold delitemB
  rw [delitemF_ok (WF_swap h) (show lookup? s.swap.fwd v = some k from hv)]
  rfl

theorem delitemB_err {α : Type} [DecidableEq α] {s : BijState α} {v : α}
    (hv : lookup? s.bwd v = none) :
    delitemB s v = (some PyErr.keyError, s) := by
  unfold delitemB
  rw [delitemF_err (show lookup? s.swap.fwd v = none from hv)]
  rfl

theorem thenOk_ok {σ : Type} (s : σ) (f : σ → Option PyErr × σ) :
    thenOk (none, s) f = f s := rfl

theorem containsKey_some {α : Type} [DecidableEq α] {d : Dict α} {k : α}
    (h : containsKey d k = true) : ∃ v, lookup? d k = some v := by
  unfold containsKey at h
  rcases he : lookup? d k with _ | v
  · rw [he] at h
    cases h
  · exact ⟨v, rfl⟩

theorem setitemF_ok {α : Type} [DecidableEq α] {s : BijState α} (h : WF s) (k v : α) :
    ∃ s', setitemF s k v = (none, s') ∧ WF s' ∧
      lookup? s'.fwd k = some v ∧ lookup? s'.bwd v = some k := by
  obtain ⟨s1, hstep1, hwf1, hk1⟩ :
      ∃ s1, (if containsKey s.fwd k then delitemF s k else (none, s)) = (none, s1) ∧
        WF s1 ∧ containsKey s1.fwd k = false := by
    by_cases hc : containsKey s.fwd k = true
    · obtain ⟨v0, hv0⟩ := containsKey_some hc
      refine ⟨⟨erase s.fwd k, erase s.bwd v0⟩, ?_, WF_erase h hv0, ?_⟩
      · rw [if_pos hc, delitemF_ok h hv0]
      · rw [containsKey_false_iff]
        exact lookup?_erase_self _ _
    · exact ⟨s, by rw [if_neg hc], h, eq_false_of_ne_true hc⟩
  obtain ⟨s2, hstep2, hwf2, hk2, hv2⟩ :
      ∃ s2, (if containsKey s1.bwd v then delitemB s1 v else (none, s1)) = (none, s2) ∧
        WF s2 ∧ containsKey s2.fwd k = false ∧ containsKey s2.bwd v = false := by
    by_cases hc : containsKey s1.bwd v = true
    · obtain ⟨k1, hk1'⟩ := containsKey_some hc
      refine ⟨⟨erase s1.fwd k1, erase s1.bwd v⟩, ?_, WF_erase_bwd hwf1 hk1', ?_, ?_⟩
      · rw [if_pos hc, delitemB_ok hwf1 hk1']
      · rw [containsKey_false_iff]
        by_cases hkk : k = k1
        · subst hkk
          exact lookup?_erase_self _ _
        · rw [lookup?_erase_ne _ hkk]
          exact (containsKey_false_iff _ _).mp hk1
      · rw [containsKey_false_iff]
        exact lookup?_erase_self _ _
    · exact ⟨s1, by rw [if_neg hc], hwf1, hk1, eq_false_of_ne_true hc⟩
  refine ⟨⟨s2.fwd ++ [(k, v)], s2.bwd ++ [(v, k)]⟩, ?_, WF_insert hwf2 hk2 hv2, ?_, ?_⟩
  · unfold setitemF
    rw [hstep1, thenOk_ok]
    rw [hstep2, thenOk_ok]
    rw [setd_of_not_contains v hk2, setd_of_not_contains k hv2]
  · rw [lookup?_append, (containsKey_false_iff _ _).mp hk2]
    simp [lookup?]
  · rw [lookup?_append, (containsKey_false_iff _ _).mp hv2]
    simp [lookup?]

theorem bijDel_eq_fwd {α : Type} [DecidableEq α] {s : BijState α} {k v : α} (h : WF s)
    (hk : lookup? s.fwd k = some v) :
    bijDel s k = (none, ⟨erase s.fwd k, erase s.bwd v⟩) := by
  unfold bijDel
  have hc : containsKey s.fwd k = true := by
    unfold containsKey
    rw [hk]
    rfl
  rw [if_pos hc, delitemF_ok h hk]

theorem bijDel_eq_bwd {α : Type} [DecidableEq α] {s : BijState α} {k k1 : α} (h : WF s)
    (hk : lookup? s.fwd k = none) (hb : lookup? s.bwd k = some k1) :
    bijDel s k = (none, ⟨erase s.fwd k1, erase s.bwd k⟩) := by
  unfold bijDel
  have hc : ¬ containsKey s.fwd k = true := by
    rw [(containsKey_false_iff s.fwd k).mpr hk]
    simp
  have hc2 : containsKey s.bwd k = true := by
    unfold containsKey
    rw [hb]
    rfl
  rw [if_neg hc, if_pos hc2, delitemB_ok h hb]

theorem bijDel_eq_miss {α : Type} [DecidableEq α] {s : BijState α} {k : α}
    (hk : lookup? s.fwd k = none) (hb : lookup? s.bwd k = none) :
    bijDel s k = (some PyErr.keyError, s) := by
  unfold bijDel
  have hc : ¬ containsKey s.fwd k = true := by
    rw [(containsKey_false_iff s.fwd k).mpr hk]
    simp
  have hc2 : ¬ containsKey s.bwd k = true := by
    rw [(containsKey_false_iff s.bwd k).mpr hb]
    simp
  rw [if_neg hc, if_neg hc2]

theorem pdInit_none {α : Type} [DecidableEq α] (pairs : List (α × α)) :
    pdInit pairs none =
      ⟨dictOf pairs, dictOf ((dictOf pairs).map Prod.swap)⟩ := rfl

theorem fix_me_bwd_nodup {α : Type} [DecidableEq α] {s t : BijState α}
    (h : fix_me_bwd s = Except.ok t) (h1 : NodupKeys s.fwd) (h2 : NodupKeys s.bwd) :
    NodupKeys t.fwd ∧ NodupKeys t.bwd := by
  unfold fix_me_bwd at h
  rcases he : is_inverse_dict s.bwd s.fwd with u | b
  · rw [he] at h
    cases h
  · rw [he] at h
    cases b
    · injection h with e
      subst e
      exact ⟨h1, nodupKeys_update _ h2⟩
    · injection h with e
      subst e
      exact ⟨h1, h2⟩

theorem fix_me_fwd_nodup {α : Type} [DecidableEq α] {s t : BijState α}
    (h : fix_me_fwd s = Except.ok t) (h1 : NodupKeys s.fwd) (h2 : NodupKeys s.bwd) :
    NodupKeys t.fwd ∧ NodupKeys t.bwd := by
  unfold fix_me_fwd at h
  rcases he : is_inverse_dict s.fwd s.bwd with u | b
  · rw [he] at h
    cases h
  · rw [he] at h
    cases b
    · injection h with e
      subst e
      exact ⟨nodupKeys_update _ h1, h2⟩
    · injection h with e
      subst e
      exact ⟨h1, h2⟩

theorem fix_inverse_nodup {α : Type} [DecidableEq α] {s t : BijState α}
    (h : fix_inverse s = Except.ok t) (h1 : NodupKeys s.fwd) (h2 : NodupKeys s.bwd) :
    NodupKeys t.fwd ∧ NodupKeys t.bwd := by
  unfold fix_inverse at h
  rcases hc1 : check_inverse s with u | c1
  · rw [hc1] at h
    simp only [chkThen] at h
    cases h
  · rw [hc1] at h
    simp only [chkThen] at h
    rcases hs1 : (if c1 = true then Except.ok s else fix_me_bwd s) with u | s1
    · rw [hs1] at h
      simp only [exThen] at h
      cases h
    · rw [hs1] at h
      simp only [exThen] at h
      have hn1 : NodupKeys s1.fwd ∧ NodupKeys s1.bwd := by
        cases c1
        · rw [if_neg (by simp)] at hs1
          exact fix_me_bwd_nodup hs1 h1 h2
        · rw [if_pos rfl] at hs1
          injection hs1 with e
          subst e
          exact ⟨h1, h2⟩
      rcases hc2 : check_inverse s1 with u | c2
      · rw [hc2] at h
        simp only [chkThen] at h
        cases h
      · rw [hc2] at h
        simp only [chkThen] at h
        rcases hs2 : (if c2 = true then Except.ok s1 else fix_me_fwd s1) with u | s2
        · rw [hs2] at h
          simp only [exThen] at h
          cases h
        · rw [hs2] at h
          simp only [exThen] at h
          have hn2 : NodupKeys s2.fwd ∧ NodupKeys s2.bwd := by
            cases c2
            · rw [if_neg (by simp)] at hs2
              exact fix_me_fwd_nodup hs2 hn1.1 hn1.2
            · rw [if_pos rfl] at hs2
              injection hs2 with e
              subst e
              exact hn1
          rcases hc3 : check_inverse s2 with u | c3
          · rw [hc3] at h
            simp only [chkThen] at h
            cases h
          · rw [hc3] at h
            simp only [chkThen] at h
            cases c3
            · rw [if_neg (by simp)] at h
              cases h
            · rw [if_pos rfl] at h
              injection h with e
              subst e
              exact hn2

theorem make_pairs_ok_parts {α : Type} [DecidableEq α] {pairs : List (α × α)}
    {s : BijState α} (h : make_pairs pairs = Except.ok s) :
    fix_inverse (pdInit pairs none) = Except.ok s ∧
      check_inverse s = Except.ok true := by
  unfold make_pairs at h
  rcases hf : fix_inverse (pdInit pairs none) with u | s1
  · rw [hf] at h
    simp only [exThen] at h
    cases h
  · rw [hf] at h
    simp only [exThen] at h
    rcases hc : check_inverse s1 with u | b
    · rw [hc] at h
      simp only [chkThen] at h
      cases h
    · rw [hc] at h
      simp only [chkThen] at h
      cases b
      · rw [if_neg (by simp)] at h
        cases h
      · rw [if_pos rfl] at h
        injection h with e
        subst e
        exact ⟨rfl, hc⟩

theorem make_pairs_WF {α : Type} [DecidableEq α] {pairs : List (α × α)}
    {s : BijState α} (h : make_pairs pairs = Except.ok s) : WF s := by
  obtain ⟨hfi, hchk⟩ := make_pairs_ok_parts h
  have hnod : NodupKeys s.fwd ∧ NodupKeys s.bwd := by
    apply fix_inverse_nodup hfi
    · rw [pdInit_none]
      exact nodupKeys_dictOf _
    · rw [pdInit_none]
      exact nodupKeys_dictOf _
  exact ⟨hnod.1, hnod.2, (check_inverse_ok_true_iff s).mp hchk⟩

theorem keys_update_fromkeys {α : Type} [DecidableEq α] (d : Dict α) (ks : List α)
    (h : ks.Nodup) :
    keys (update d (ks.map (fun k => (k, k)))) =
      keys d ++ ks.filter (fun k => decide (k ∉ keys d)) := by
  induction ks generalizing d with
  | nil => simp [update, keys]
  | cons k rest ih =>
    rw [List.map_cons]
    rw [show update d ((k, k) :: rest.map (fun k => (k, k))) =
      update (setd d k k) (rest.map (fun k => (k, k))) from rfl]
    rw [List.nodup_cons] at h
    by_cases hc : containsKey d k = true
    · rw [ih (setd d k k) h.2]
      rw [keys_setd_of_contains _ hc]
      have hk : k ∈ keys d := (containsKey_true_iff d k).mp hc
      rw [List.filter_cons]
      simp [hk]
    · rw [ih (setd d k k) h.2]
      rw [keys_setd_of_not_contains _ (eq_false_of_ne_true hc)]
      have hk : k ∉ keys d := fun hm => hc ((containsKey_true_iff d k).mpr hm)
      rw [List.filter_cons]
      have hfil : rest.filter (fun x => decide (x ∉ keys d ++ [k])) =
          rest.filter (fun x => decide (x ∉ keys d)) := by
        apply List.filter_congr
        intro x hx
        have hxk : x ≠ k := fun he => h.1 (he ▸ hx)
        simp [List.mem_append, hxk]
      rw [hfil]
      simp [hk, List.append_assoc]

theorem bijIter_eq {α : Type} [DecidableEq α] (s : BijState α)
    (hf : NodupKeys s.fwd) (hb : NodupKeys s.bwd) :
    bijIter s = keys s.bwd ++ (keys s.fwd).filter (fun k => decide (k ∉ keys s.bwd)) := by
  unfold bijIter chainIter
  simp only [List.reverse_cons, List.reverse_nil, List.nil_append, List.cons_append,
    List.foldl_cons, List.foldl_nil]
  have h1 : keys (update ([] : Dict α) ((keys s.bwd).map (fun k => (k, k)))) =
      keys s.bwd := by
    rw [keys_update_fromkeys _ _ hb]
    have : ∀ x ∈ keys s.bwd, (fun k => decide (k ∉ keys ([] : Dict α))) x = true := by
      intro x _
      simp [keys]
    rw [List.filter_eq_self.mpr this]
    rfl
  rw [keys_update_fromkeys _ _ hf, h1]

theorem dictBEq_true_iff {α : Type} [DecidableEq α] (d1 d2 : Dict α) :
    dictBEq d1 d2 = true ↔
      (d1.length = d2.length ∧ ∀ p ∈ d1, lookup? d2 p.1 = some p.2) := by
  unfold dictBEq
  simp [List.all_eq_true]

theorem is_inverse_dict_SetInv {α : Type} [DecidableEq α] {m1 m2 : Dict α}
    (h1 : NodupKeys m1) (h2 : NodupKeys m2) :
    is_inverse_dict m1 m2 = Except.ok true ↔ SetInv m1 m2 := by
  rw [is_inverse_dict_ok_true_iff]
  constructor
  · rintro ⟨hlen, hall⟩
    refine ⟨hlen, ?_⟩
    intro k v
    constructor
    · intro hk
      exact hall (k, v) (mem_of_lookup? hk)
    · intro hv
      exact lookup?_flip h1 h2 hlen hall hv
  · rintro ⟨hlen, hiff⟩
    refine ⟨hlen, ?_⟩
    intro p hp
    exact (hiff p.1 p.2).mp (lookup?_of_mem h1 hp)

theorem heapWF_get {α : Type} [DecidableEq α] {h : Heap α} (hw : HeapWF h) {i : Nat}
    {o : PDObj α} (hio : h.get? i = some o) : invPtrOK h o ∧ NodupKeys o.data :=
  hw o (List.get?_mem hio)

theorem invPtrOK_get {α : Type} {h : Heap α} {o : PDObj α} (hp : invPtrOK h o)
    {j : Nat} (hj : o.inverse = some j) : ∃ oj, h.get? j = some oj := by
  unfold invPtrOK at hp
  rw [hj] at hp
  rcases he : h.get? j with _ | oj
  · rw [List.get?_eq_none] at he
    omega
  · exact ⟨oj, rfl⟩

/-!  The claims. -/

/-- C3: constructing a bijective pair from the pairs [(1,'a'), (2,'a')]
(the repeated value 'a' encoded as 10) via the strict constructor
`PairedDict.make_pairs` — and hence via `BijectiveMap`'s constructor —
fails with ValueError. -/
theorem claim_C3 :
    make_pairs [(1, 10), (2, 10)] = Except.error PyErr.valueError ∧
      bijNew [(1, 10), (2, 10)] = Except.error PyErr.valueError :=
  ⟨by decide, by decide⟩

/-- C4: constructing a `PairedDict` directly (the non-strict path, no
inverse supplied) from pairs with the repeated value [(1,'a'), (2,'a')]
('a' encoded as 10) does not raise — `pdInit` is total and returns the
contents below, the backward side having silently dropped the pair
(1, 'a') — and `check_inverse` on the result returns `False`. -/
theorem claim_C4 :
    pdInit [(1, 10), (2, 10)] none =
      (⟨[(1, 10), (2, 10)], [(10, 2)]⟩ : BijState Nat) ∧
      check_inverse (pdInit [(1, 10), (2, 10)] none) = Except.ok false :=
  ⟨by decide, by decide⟩

/-- C10: the symmetric top-level lookup `m[x]` returns `m.fwd[x]`
whenever `x` is a key of the forward map — even when `x` is also a key
of the backward map, the forward value takes priority — and returns
`m.bwd[x]` when `x` is a key only of the backward map (`ChainMap`
searches `maps[0] = fwd` before `maps[1] = bwd`). -/
theorem claim_C10 {α : Type} [DecidableEq α] (s : BijState α) (x : α) :
    (∀ v, lookup? s.fwd x = some v → bijGet s x = Except.ok v) ∧
    (lookup? s.fwd x = none →
      ∀ v, lookup? s.bwd x = some v → bijGet s x = Except.ok v) := by
  constructor
  · intro v hv
    unfold bijGet
    rw [hv]
  · intro hn v hv
    unfold bijGet
    rw [hn, hv]

/-- Witness for C10, on a state where key 5 is a key of both directions
(the forward value 6 wins) and key 8 is a key of the backward map only. -/
theorem claim_C10_witness :
    bijGet (⟨[(5, 6)], [(5, 7), (8, 9)]⟩ : BijState Nat) 5 = Except.ok 6 ∧
    bijGet (⟨[(5, 6)], [(5, 7), (8, 9)]⟩ : BijState Nat) 8 = Except.ok 9 :=
  ⟨(claim_C10 ⟨[(5, 6)], [(5, 7), (8, 9)]⟩ 5).1 6 (by decide),
   (claim_C10 ⟨[(5, 6)], [(5, 7), (8, 9)]⟩ 8).2 (by decide) 9 (by decide)⟩

/-- C6: for every well-formed (`WF`) `PairedDict` pair and key `k`: when
`k` is paired with `v`, deletion removes `k ↦ v` from the forward dict
and `v ↦ k` from the inverse; when `k` is absent, deletion fails with
`KeyError` and leaves both dictionaries unchanged. -/
theorem claim_C6 {α : Type} [DecidableEq α] (s : BijState α) (k : α) (hwf : WF s) :
    (∀ v, lookup? s.fwd k = some v →
      delitemF s k = (none, ⟨erase s.fwd k, erase s.bwd v⟩)) ∧
    (lookup? s.fwd k = none → delitemF s k = (some PyErr.keyError, s)) :=
  ⟨fun _ hv => delitemF_ok hwf hv, fun hn => delitemF_err hn⟩

/-- Witness for C6 on the pair {1: 2} / {2: 1}: deleting 1 removes both
entries, deleting the absent 3 raises and leaves the state unchanged. -/
theorem claim_C6_witness :
    delitemF (⟨[(1, 2)], [(2, 1)]⟩ : BijState Nat) 1 =
      (none, ⟨erase [(1, 2)] 1, erase [(2, 1)] 2⟩) ∧
    delitemF (⟨[(1, 2)], [(2, 1)]⟩ : BijState Nat) 3 =
      (some PyErr.keyError, ⟨[(1, 2)], [(2, 1)]⟩) :=
  ⟨(claim_C6 ⟨[(1, 2)], [(2, 1)]⟩ 1 (by decide)).1 2 (by decide),
   (claim_C6 ⟨[(1, 2)], [(2, 1)]⟩ 3 (by decide)).2 (by decide)⟩

/-- C7: top-level `BijectiveMap` deletion deletes through the forward
map when `k` is among its keys, otherwise through the backward map when
`k` is among its keys, and fails with `KeyError` when `k` is a key of
neither direction. -/
theorem claim_C7 {α : Type} [DecidableEq α] (s : BijState α) (k : α) (hwf : WF s) :
    (∀ v, lookup? s.fwd k = some v →
      bijDel s k = (none, ⟨erase s.fwd k, erase s.bwd v⟩)) ∧
    (lookup? s.fwd k = none → ∀ k1, lookup? s.bwd k = some k1 →
      bijDel s k = (none, ⟨erase s.fwd k1, erase s.bwd k⟩)) ∧
    (lookup? s.fwd k = none → lookup? s.bwd k = none →
      bijDel s k = (some PyErr.keyError, s)) :=
  ⟨fun _ hv => bijDel_eq_fwd hwf hv,
   fun hn _ hb => bijDel_eq_bwd hwf hn hb,
   fun hn hb => bijDel_eq_miss hn hb⟩

/-- Witness for C7 on the pair {1: 2} / {2: 1}: key 1 deletes through
the forward map, key 2 through the backward map, key 3 raises. -/
theorem claim_C7_witness :
    bijDel (⟨[(1, 2)], [(2, 1)]⟩ : BijState Nat) 1 =
      (none, ⟨erase [(1, 2)] 1, erase [(2, 1)] 2⟩) ∧
    bijDel (⟨[(1, 2)], [(2, 1)]⟩ : BijState Nat) 2 =
      (none, ⟨erase [(1, 2)] 1, erase [(2, 1)] 2⟩) ∧
    bijDel (⟨[(1, 2)], [(2, 1)]⟩ : BijState Nat) 3 =
      (some PyErr.keyError, ⟨[(1, 2)], [(2, 1)]⟩) :=
  ⟨(claim_C7 ⟨[(1, 2)], [(2, 1)]⟩ 1 (by decide)).1 2 (by decide),
   (claim_C7 ⟨[(1, 2)], [(2, 1)]⟩ 2 (by decide)).2.1 (by decide) 1 (by decide),
   (claim_C7 ⟨[(1, 2)], [(2, 1)]⟩ 3 (by decide)).2.2 (by decide) (by decide)⟩

/-- C2: displacement law for set.  On a well-formed (formed) pair where
`k` is paired with `v_old` and `v` is paired with `k_old` (`k_old ≠ k`,
`v_old ≠ v`), after `m[k] = v` (the forward guarded set): `k_old` is
absent from the forward map, `v_old` is absent from the backward map,
`fwd[k] = v` and `bwd[v] = k` — both previous associations are fully
displaced. -/
theorem claim_C2 {α : Type} [DecidableEq α] {s : BijState α} {k v k_old v_old : α}
    (hwf : WF s) (hk : lookup? s.fwd k = some v_old)
    (hv : lookup? s.bwd v = some k_old) (hko : k_old ≠ k) (hvo : v_old ≠ v) :
    ∃ s', bijSet s k v = (none, s') ∧
      lookup? s'.fwd k_old = none ∧ lookup? s'.bwd v_old = none ∧
      lookup? s'.fwd k = some v ∧ lookup? s'.bwd v = some k := by
  have hc1 : containsKey s.fwd k = true := by
    unfold containsKey
    rw [hk]
    rfl
  have hwf1 : WF (⟨erase s.fwd k, erase s.bwd v_old⟩ : BijState α) := WF_erase hwf hk
  have hs1v : lookup? (erase s.bwd v_old) v = some k_old := by
    rw [lookup?_erase_ne _ (fun he => hvo he.symm)]
    exact hv
  have hc2 : containsKey (erase s.bwd v_old) v = true := by
    unfold containsKey
    rw [hs1v]
    rfl
  have hfwd2k : lookup? (erase (erase s.fwd k) k_old) k = none := by
    rw [lookup?_erase_ne _ (fun he => hko he.symm)]
    exact lookup?_erase_self _ _
  have hbwd2v : lookup? (erase (erase s.bwd v_old) v) v = none :=
    lookup?_erase_self _ _
  refine ⟨⟨erase (erase s.fwd k) k_old ++ [(k, v)],
    erase (erase s.bwd v_old) v ++ [(v, k)]⟩, ?_, ?_, ?_, ?_, ?_⟩
  · unfold bijSet setitemF
    rw [if_pos hc1, delitemF_ok hwf hk, thenOk_ok]
    rw [show (⟨erase s.fwd k, erase s.bwd v_old⟩ : BijState α).bwd =
      erase s.bwd v_old from rfl]
    rw [if_pos hc2, delitemB_ok hwf1 hs1v, thenOk_ok]
    rw [setd_of_not_contains v ((containsKey_false_iff _ _).mpr hfwd2k)]
    rw [setd_of_not_contains k ((containsKey_false_iff _ _).mpr hbwd2v)]
  · rw [lookup?_append, lookup?_erase_self]
    have hne : ¬ k = k_old := fun he => hko he.symm
    simp [lookup?, hne]
  · rw [lookup?_append]
    rw [lookup?_erase_ne _ hvo, lookup?_erase_self]
    have hne : ¬ v = v_old := fun he => hvo he.symm
    simp [lookup?, hne]
  · rw [lookup?_append, hfwd2k]
    simp [lookup?]
  · rw [lookup?_append, hbwd2v]
    simp [lookup?]

/-- Witness for C2: in the map {1: 10, 2: 20}, setting `m[1] = 20`
displaces both the old pair (1, 10) and the old pair (2, 20). -/
theorem claim_C2_witness :
    ∃ s', bijSet (⟨[(1, 10), (2, 20)], [(10, 1), (20, 2)]⟩ : BijState Nat) 1 20 =
        (none, s') ∧
      lookup? s'.fwd 2 = none ∧ lookup? s'.bwd 10 = none ∧
      lookup? s'.fwd 1 = some 20 ∧ lookup? s'.bwd 20 = some 1 :=
  claim_C2 (s := ⟨[(1, 10), (2, 20)], [(10, 1), (20, 2)]⟩)
    (by decide) (by decide) (by decide) (by decide) (by decide)

/-- C1: for every well-formed `BijectiveMap`, after any public operation
(construction via the strict constructor, guarded set, top-level delete)
returns normally, the inverse-consistency invariant holds: every pair
`k ↦ v` of the forward dict satisfies `bwd[v] = k`, and the two dicts
have equal length. -/
theorem claim_C1 {α : Type} [DecidableEq α] :
    (∀ (pairs : List (α × α)) (s : BijState α), bijNew pairs = Except.ok s →
      (∀ p ∈ s.fwd, lookup? s.bwd p.2 = some p.1) ∧ s.fwd.length = s.bwd.length) ∧
    (∀ (s : BijState α) (k v : α) (t : BijState α), WF s → bijSet s k v = (none, t) →
      (∀ p ∈ t.fwd, lookup? t.bwd p.2 = some p.1) ∧ t.fwd.length = t.bwd.length) ∧
    (∀ (s : BijState α) (k : α) (t : BijState α), WF s → bijDel s k = (none, t) →
      (∀ p ∈ t.fwd, lookup? t.bwd p.2 = some p.1) ∧ t.fwd.length = t.bwd.length) := by
  refine ⟨?_, ?_, ?_⟩
  · intro pairs s hmk
    unfold bijNew at hmk
    exact (make_pairs_WF hmk).2.2
  · intro s k v t hwf hset
    obtain ⟨s', heq, hwf', _, _⟩ := setitemF_ok hwf k v
    unfold bijSet at hset
    rw [heq] at hset
    injection hset with e1 e2
    subst e2
    exact hwf'.2.2
  · intro s k t hwf hdel
    by_cases hc : containsKey s.fwd k = true
    · obtain ⟨v, hv⟩ := containsKey_some hc
      rw [bijDel_eq_fwd hwf hv] at hdel
      injection hdel with e1 e2
      subst e2
      exact (WF_erase hwf hv).2.2
    · have hn : lookup? s.fwd k = none :=
        (containsKey_false_iff _ _).mp (eq_false_of_ne_true hc)
      by_cases hc2 : containsKey s.bwd k = true
      · obtain ⟨k1, hk1⟩ := containsKey_some hc2
        rw [bijDel_eq_bwd hwf hn hk1] at hdel
        injection hdel with e1 e2
        subst e2
        exact (WF_erase_bwd hwf hk1).2.2
      · have hb : lookup? s.bwd k = none :=
          (containsKey_false_iff _ _).mp (eq_false_of_ne_true hc2)
        rw [bijDel_eq_miss hn hb] at hdel
        injection hdel with e1 e2
        cases e1

/-- Witness for C1: construction from [(1, 2)], then a set `m[1] = 3`
on the result, then a delete of the backward key 2, each landing in a
state satisfying the invariant. -/
theorem claim_C1_witness :
    ((∀ p ∈ ([(1, 2)] : Dict Nat), lookup? [(2, 1)] p.2 = some p.1) ∧
      ([(1, 2)] : Dict Nat).length = ([(2, 1)] : Dict Nat).length) ∧
    ((∀ p ∈ ([(1, 3)] : Dict Nat), lookup? [(3, 1)] p.2 = some p.1) ∧
      ([(1, 3)] : Dict Nat).length = ([(3, 1)] : Dict Nat).length) ∧
    ((∀ p ∈ ([] : Dict Nat), lookup? [] p.2 = some p.1) ∧
      ([] : Dict Nat).length = ([] : Dict Nat).length) :=
  ⟨claim_C1.1 [(1, 2)] ⟨[(1, 2)], [(2, 1)]⟩ (by decide),
   claim_C1.2.1 ⟨[(1, 2)], [(2, 1)]⟩ 1 3 ⟨[(1, 3)], [(3, 1)]⟩ (by decide) (by decide),
   claim_C1.2.2 ⟨[(1, 2)], [(2, 1)]⟩ 2 ⟨[], []⟩ (by decide) (by decide)⟩

/-- C9 counterexample: for the `BijectiveMap` constructed from [(1, 2)]
(forward [(1, 2)], backward [(2, 1)]), iteration yields [2, 1] — the
backward key first, by `ChainMap.__iter__` semantics — and not the
forward keys [1] in forward insertion order, refuting the claim that
iteration yields exactly the forward keys. -/
theorem claim_C9_counterexample :
    bijNew [(1, 2)] = Except.ok (⟨[(1, 2)], [(2, 1)]⟩ : BijState Nat) ∧
    bijIter (⟨[(1, 2)], [(2, 1)]⟩ : BijState Nat) = [2, 1] ∧
    keys ([(1, 2)] : Dict Nat) = [1] ∧ ([2, 1] : List Nat) ≠ [1] := by decide

/-- C9 amended: iterating over a `BijectiveMap` yields the union of the
two directions' key spaces in `ChainMap` order — the keys of the
backward map first, in backward insertion order, followed by those keys
of the forward map that are not backward keys, in forward insertion
order. -/
theorem claim_C9_amended {α : Type} [DecidableEq α] (s : BijState α)
    (hf : NodupKeys s.fwd) (hb : NodupKeys s.bwd) :
    bijIter s = keys s.bwd ++ (keys s.fwd).filter (fun k => decide (k ∉ keys s.bwd)) :=
  bijIter_eq s hf hb

/-- Witness for the amended C9 on the state from the counterexample. -/
theorem claim_C9_amended_witness :
    bijIter (⟨[(1, 2)], [(2, 1)]⟩ : BijState Nat) =
      keys ([(2, 1)] : Dict Nat) ++
        (keys ([(1, 2)] : Dict Nat)).filter
          (fun k => decide (k ∉ keys ([(2, 1)] : Dict Nat))) :=
  claim_C9_amended ⟨[(1, 2)], [(2, 1)]⟩ (by decide) (by decide)

/-- C5 counterexample: a reachable heap in which object 0's
`check_inverse` returns `True` although `inverse.inverse` is object 2 —
a distinct object from 0 with merely equal contents (`self.inverse` was
replaced by a copy).  The code compares `self.inverse.inverse != self`
by mapping equality, not object identity, so the claimed "same object"
condition is not necessary for a `True` result. -/
theorem claim_C5_counterexample :
    HeapWF ([⟨[(1, 2)], some 1⟩, ⟨[(2, 1)], some 2⟩,
      ⟨[(1, 2)], some 1⟩] : Heap Nat) ∧
    hCheckInverse ([⟨[(1, 2)], some 1⟩, ⟨[(2, 1)], some 2⟩,
      ⟨[(1, 2)], some 1⟩] : Heap Nat) 0 = Except.ok true ∧
    (([⟨[(1, 2)], some 1⟩, ⟨[(2, 1)], some 2⟩,
      ⟨[(1, 2)], some 1⟩] : Heap Nat).get? 0).bind PDObj.inverse = some 1 ∧
    (([⟨[(1, 2)], some 1⟩, ⟨[(2, 1)], some 2⟩,
      ⟨[(1, 2)], some 1⟩] : Heap Nat).get? 1).bind PDObj.inverse = some 2 ∧
    (2 : Nat) ≠ 0 := by decide

/-- C5 amended: on a reachable heap, `check_inverse` on object `i`
returns `True` iff (a) an inverse object is set, (b) that object's own
inverse is set and its contents compare equal (as a mapping — not
necessarily the same object; identity is only checked by
`check_inverse_strict`) to `i`'s contents, and (c) the two objects'
dictionaries are exact set-inverses of each other. -/
theorem claim_C5_amended {α : Type} [DecidableEq α] (h : Heap α) (i : Nat)
    (o : PDObj α) (hw : HeapWF h) (hio : h.get? i = some o) :
    hCheckInverse h i = Except.ok true ↔
      ∃ j oj, o.inverse = some j ∧ h.get? j = some oj ∧
        (∃ l ol, oj.inverse = some l ∧ h.get? l = some ol ∧
          dictBEq ol.data o.data = true) ∧
        SetInv o.data oj.data := by
  rcases hinv : o.inverse with _ | j
  · have hred : hCheckInverse h i = Except.ok false := by
      unfold hCheckInverse
      simp only [optThen, hio, hinv]
    rw [hred]
    constructor
    · intro hc
      injection hc with e
      cases e
    · rintro ⟨j, oj, hj, _⟩
      cases hj
  · obtain ⟨oj, hjo⟩ := invPtrOK_get (heapWF_get hw hio).1 hinv
    rcases hinv2 : oj.inverse with _ | l
    · have hred : hCheckInverse h i = Except.ok false := by
        unfold hCheckInverse
        simp only [optThen, hio, hinv, hjo, hinv2]
      rw [hred]
      constructor
      · intro hc
        injection hc with e
        cases e
      · rintro ⟨j', oj', hj', hjo', ⟨l, ol, hl, _, _⟩, _⟩
        injection hj' with ej
        subst ej
        rw [hjo] at hjo'
        injection hjo' with eo
        subst eo
        rw [hinv2] at hl
        cases hl
    · obtain ⟨ol, hlo⟩ := invPtrOK_get (heapWF_get hw hjo).1 hinv2
      by_cases hbe : dictBEq ol.data o.data = true
      · have hred : hCheckInverse h i = is_inverse_dict o.data oj.data := by
          unfold hCheckInverse
          simp only [optThen, hio, hinv, hjo, hinv2, hlo]
          rw [if_pos hbe]
        rw [hred,
          is_inverse_dict_SetInv (heapWF_get hw hio).2 (heapWF_get hw hjo).2]
        constructor
        · intro hs
          exact ⟨j, oj, rfl, hjo, ⟨l, ol, hinv2, hlo, hbe⟩, hs⟩
        · rintro ⟨j', oj', hj', hjo', _, hs⟩
          injection hj' with ej
          subst ej
          rw [hjo] at hjo'
          injection hjo' with eo
          subst eo
          exact hs
      · have hred : hCheckInverse h i = Except.ok false := by
          unfold hCheckInverse
          simp only [optThen, hio, hinv, hjo, hinv2, hlo]
          rw [if_neg hbe]
        rw [hred]
        constructor
        · intro hc
          injection hc with e
          cases e
        · rintro ⟨j', oj', hj', hjo', ⟨l', ol', hl', hlo', hbe'⟩, _⟩
          injection hj' with ej
          subst ej
          rw [hjo] at hjo'
          injection hjo' with eo
          subst eo
          rw [hinv2] at hl'
          injection hl' with el
          subst el
          rw [hlo] at hlo'
          injection hlo' with eol
          subst eol
          exact absurd hbe' hbe

/-- Witness for the amended C5 on a consistent two-object heap. -/
theorem claim_C5_amended_witness :
    HeapWF ([⟨[(1, 2)], some 1⟩, ⟨[(2, 1)], some 0⟩] : Heap Nat) ∧
    (hCheckInverse ([⟨[(1, 2)], some 1⟩, ⟨[(2, 1)], some 0⟩] : Heap Nat) 0 =
        Except.ok true ↔
      ∃ j oj, (⟨[(1, 2)], some 1⟩ : PDObj Nat).inverse = some j ∧
        ([⟨[(1, 2)], some 1⟩, ⟨[(2, 1)], some 0⟩] : Heap Nat).get? j = some oj ∧
        (∃ l ol, oj.inverse = some l ∧
          ([⟨[(1, 2)], some 1⟩, ⟨[(2, 1)], some 0⟩] : Heap Nat).get? l = some ol ∧
          dictBEq ol.data (⟨[(1, 2)], some 1⟩ : PDObj Nat).data = true) ∧
        SetInv (⟨[(1, 2)], some 1⟩ : PDObj Nat).data oj.data) :=
  ⟨by decide,
   claim_C5_amended [⟨[(1, 2)], some 1⟩, ⟨[(2, 1)], some 0⟩] 0
     ⟨[(1, 2)], some 1⟩ (by decide) (by decide)⟩

/-- C8 counterexample: object 0 holds {1: 10, 2: 20} with inverse
object 1 holding {10: 1}; the pair is inconsistent, yet `fix_me` leaves
object 0's entries unchanged (the merge `update` re-writes 1 ↦ 10 and
keeps 2 ↦ 20), so afterwards the entries are not
`{v: k for (k, v) in d.inverse}` — that inversion lacks the key 2.
`fix_me` merges instead of clearing and rebuilding. -/
theorem claim_C8_counterexample :
    hCheckInverse ([⟨[(1, 10), (2, 20)], some 1⟩,
      ⟨[(10, 1)], some 0⟩] : Heap Nat) 0 = Except.ok false ∧
    hFixMe ([⟨[(1, 10), (2, 20)], some 1⟩, ⟨[(10, 1)], some 0⟩] : Heap Nat) 0 =
      Except.ok ([⟨[(1, 10), (2, 20)], some 1⟩, ⟨[(10, 1)], some 0⟩] : Heap Nat) ∧
    lookup? ([(1, 10), (2, 20)] : Dict Nat) 2 = some 20 ∧
    lookup? (dictOf (([(10, 1)] : Dict Nat).map Prod.swap)) 2 = none := by decide

/-- Demonstration of the self-aliased `fix_me` (an object whose
`inverse` is itself, reachable by attribute assignment): for
{1: 2, 2: 3, 3: 1} the interleaved generator reads key 2's already
overwritten value, giving {1: 3, 2: 1, 3: 1} — not the {1: 3, 2: 1,
3: 2} a snapshot merge would give — and for {1: 2, 2: 3, 3: 5} the
merge grows the dict, so the size guard raises `RuntimeError`. -/
theorem hFixMe_self_alias :
    hFixMe ([⟨[(1, 2), (2, 3), (3, 1)], some 0⟩] : Heap Nat) 0 =
      Except.ok ([⟨[(1, 3), (2, 1), (3, 1)], some 0⟩] : Heap Nat) ∧
    update [(1, 2), (2, 3), (3, 1)]
        (([(1, 2), (2, 3), (3, 1)] : Dict Nat).map Prod.swap) =
      [(1, 3), (2, 1), (3, 2)] ∧
    hFixMe ([⟨[(1, 2), (2, 3), (3, 5)], some 0⟩] : Heap Nat) 0 =
      Except.error () := by decide

/-- C8 amended: for a `PairedDict` object `d` (heap slot `i`),
`fix_me()` does nothing when `d.inverse` is unset or when `d` is
already consistent; when `d.inverse` is set to a different object than
`d` and `d` is inconsistent, it updates (merges) `d`'s entries in place
with the inversion of `d.inverse`'s entries — overwriting values at
common keys and appending missing keys, but retaining keys of `d` that
the inversion does not produce — and modifies no other heap slot (in
particular it does not modify `d.inverse`).  The self-aliased case
`d.inverse is d` is excluded: there the generator over the inverse is
interleaved with the mutation (`selfInvMergeAux`), so the merge does
not read a snapshot and can raise `RuntimeError`. -/
theorem claim_C8_amended {α : Type} [DecidableEq α] (h : Heap α) (i : Nat)
    (o : PDObj α) (hio : h.get? i = some o) :
    (o.inverse = none → hFixMe h i = Except.ok h) ∧
    (hCheckInverse h i = Except.ok true → hFixMe h i = Except.ok h) ∧
    (∀ j oj, o.inverse = some j → h.get? j = some oj → j ≠ i →
      hCheckInverse h i = Except.ok false →
      ∃ h', hFixMe h i = Except.ok h' ∧
        h' = h.set i ⟨update o.data (oj.data.map Prod.swap), o.inverse⟩ ∧
        ∀ i', i' ≠ i → h'.get? i' = h.get? i') := by
  refine ⟨?_, ?_, ?_⟩
  · intro hinv
    unfold hFixMe
    simp only [optThen, hio, hinv]
  · intro hchk
    rcases hinv : o.inverse with _ | j
    · unfold hFixMe
      simp only [optThen, hio, hinv]
    · unfold hFixMe
      simp only [optThen, hio, hinv, hchk, chkThenU, if_true]
  · intro j oj hinv hjo hne hchk
    refine ⟨h.set i ⟨update o.data (oj.data.map Prod.swap), o.inverse⟩, ?_, rfl, ?_⟩
    · unfold hFixMe
      simp only [optThen, hio, hinv, hchk, chkThenU, hjo]
      rw [if_neg (by simp)]
      rw [if_neg (fun he => hne he.symm)]
    · intro i' hne'
      exact List.get?_set_ne _ _ (Ne.symm hne')

/-- Witness for the amended C8: the no-inverse case on a one-object
heap, the consistent case on a two-object heap, and the inconsistent
case from the counterexample heap, where the merge keeps 2 ↦ 20. -/
theorem claim_C8_amended_witness :
    hFixMe ([⟨[(1, 2)], none⟩] : Heap Nat) 0 =
      Except.ok ([⟨[(1, 2)], none⟩] : Heap Nat) ∧
    hFixMe ([⟨[(1, 2)], some 1⟩, ⟨[(2, 1)], some 0⟩] : Heap Nat) 0 =
      Except.ok ([⟨[(1, 2)], some 1⟩, ⟨[(2, 1)], some 0⟩] : Heap Nat) ∧
    ∃ h', hFixMe ([⟨[(1, 10), (2, 20)], some 1⟩,
        ⟨[(10, 1)], some 0⟩] : Heap Nat) 0 = Except.ok h' ∧
      h' = ([⟨[(1, 10), (2, 20)], some 1⟩, ⟨[(10, 1)], some 0⟩] : Heap Nat).set 0
        ⟨update [(1, 10), (2, 20)] (([(10, 1)] : Dict Nat).map Prod.swap), some 1⟩ ∧
      ∀ i', i' ≠ 0 → h'.get? i' =
        ([⟨[(1, 10), (2, 20)], some 1⟩, ⟨[(10, 1)], some 0⟩] : Heap Nat).get? i' :=
  ⟨(claim_C8_amended [⟨[(1, 2)], none⟩] 0 ⟨[(1, 2)], none⟩ (by decide)).1 (by decide),
   (claim_C8_amended [⟨[(1, 2)], some 1⟩, ⟨[(2, 1)], some 0⟩] 0
     ⟨[(1, 2)], some 1⟩ (by decide)).2.1 (by decide),
   (claim_C8_amended [⟨[(1, 10), (2, 20)], some 1⟩, ⟨[(10, 1)], some 0⟩] 0
     ⟨[(1, 10), (2, 20)], some 1⟩ (by decide)).2.2 1 ⟨[(10, 1)], some 0⟩
     (by decide) (by decide) (by decide) (by decide)⟩
